import Mathlib

/-!
# In-memory raft log (`src/log.h`): shallow embedding and verification

The repository ships only the interface `src/log.h` of its in-memory log of
raft entries; the implementation file is not present under `src/`.  The
definitions below are therefore modelled from the natural-language
specification (`spec.md`) and from the doc comments of `src/log.h`:

* The log holds an ordered sequence of outstanding `entries`, logically
  addressed by a gap-free integer index starting at `offset + 1`.
* `snapshot` records the index and term of the most recent snapshot
  (`none` when no snapshot exists).
* `refs` is the sparse acquire-count table: one cell `(index, count, batch)`
  per index currently handed out via `log__acquire` and not yet fully
  released.  The third component records which batch backed the entry at
  that index when it was acquired (in the C code this information travels
  in the entry structs passed back to `log__release`).
* `batches` is the reference-count table of the batch allocator: one cell
  `(batch-id, refcount)` per live backing allocation; a batch whose cell has
  been removed has been freed.  Payload bytes of an entry stay valid exactly
  while the entry's batch is still live.
* `nextBatch` is the source of fresh batch identifiers.

All machine integers of the C code (`raft_index`, `raft_term`, `size_t`)
are modelled as `Nat`; payload buffers are lists of bytes (`List Nat`).
-/

/-- One record of the log: election term, entry type tag, the payload bytes
supplied at append time, and the identifier of the batch that owns the
payload memory. -/
structure RaftEntry where
  term : Nat
  type : Nat
  buf : List Nat
  batch : Nat
deriving DecidableEq, Repr

/-- The in-memory log state (see the module comment for the reading of each
field). -/
structure RaftLog where
  entries : List RaftEntry
  offset : Nat
  snapshot : Option (Nat × Nat)
  refs : List (Nat × Nat × Nat)
  batches : List (Nat × Nat)
  nextBatch : Nat
deriving DecidableEq, Repr

/-- Reference count of batch `b` in a batch table (0 when the batch has been
freed, i.e. has no cell). -/
def refOf : List (Nat × Nat) → Nat → Nat
  | [], _ => 0
  | (b0, c) :: rest, b => if b = b0 then c else refOf rest b

/-- Increment the reference count of batch `b`, creating the cell with count 1
when the batch is not yet in the table. -/
def bumpRef : List (Nat × Nat) → Nat → List (Nat × Nat)
  | [], b => [(b, 1)]
  | (b0, c) :: rest, b =>
      if b = b0 then (b0, c + 1) :: rest else (b0, c) :: bumpRef rest b

/-- Decrement the reference count of batch `b`; when the count drops to zero
the cell is removed, which models freeing the batch memory. -/
def decRefFree : List (Nat × Nat) → Nat → List (Nat × Nat)
  | [], _ => []
  | (b0, c) :: rest, b =>
      if b = b0 then (if c ≤ 1 then rest else (b0, c - 1) :: rest)
      else (b0, c) :: decRefFree rest b

/-- Outstanding acquire count of index `k` in the sparse acquire table. -/
def acqCount : List (Nat × Nat × Nat) → Nat → Nat
  | [], _ => 0
  | (i, c, _) :: rest, k => if k = i then c else acqCount rest k

/-- The full cell (count, recorded batch) of index `k` in the acquire table. -/
def acqGhost : List (Nat × Nat × Nat) → Nat → Option (Nat × Nat)
  | [], _ => none
  | (i, c, b) :: rest, k => if k = i then some (c, b) else acqGhost rest k

/-- Increment the acquire count of index `k`; a fresh cell records batch `b`
as the batch backing the entry handed out at `k`. -/
def bumpAcq : List (Nat × Nat × Nat) → Nat → Nat → List (Nat × Nat × Nat)
  | [], k, b => [(k, 1, b)]
  | (i, c, b0) :: rest, k, b =>
      if k = i then (i, c + 1, b0) :: rest else (i, c, b0) :: bumpAcq rest k b

/-- Decrement the acquire count of index `k`, removing the cell when the
count reaches zero. -/
def decAcq : List (Nat × Nat × Nat) → Nat → List (Nat × Nat × Nat)
  | [], _ => []
  | (i, c, b0) :: rest, k =>
      if k = i then (if c ≤ 1 then rest else (i, c - 1, b0) :: rest)
      else (i, c, b0) :: decAcq rest k

/-- Pair every element of a list of entries with its log index, the first
element receiving index `i`. -/
def withIndexFrom : Nat → List RaftEntry → List (Nat × RaftEntry)
  | _, [] => []
  | i, e :: es => (i, e) :: withIndexFrom (i + 1) es

/-- The outstanding entries of a log together with their log indices
(`offset + 1`, `offset + 2`, ...). -/
def entriesWithIndex (l : RaftLog) : List (Nat × RaftEntry) :=
  withIndexFrom (l.offset + 1) l.entries

/-- Modelled from the spec: `log__init` of the missing `log.c` — the empty
log: no entries, no snapshot, offset 0, empty refcount tables. -/
def log__init : RaftLog :=
  { entries := [], offset := 0, snapshot := none, refs := [],
    batches := [], nextBatch := 0 }

/-- Modelled from the spec: `log__n_outstanding` of the missing `log.c` —
the number of entries not yet covered by the most recent snapshot. -/
def log__n_outstanding (l : RaftLog) : Nat := l.entries.length

/-- Modelled from the spec: `log__last_index` of the missing `log.c` —
`offset + len(entries)` when entries are outstanding, else the snapshot
index when a snapshot exists, else 0. -/
def log__last_index (l : RaftLog) : Nat :=
  match l.entries, l.snapshot with
  | [], some (si, _) => si
  | [], none => 0
  | _ :: _, _ => l.offset + l.entries.length

/-- Modelled from the spec: `log__snapshot_index` of the missing `log.c` —
the last index of the most recent snapshot, 0 when there is none. -/
def log__snapshot_index (l : RaftLog) : Nat :=
  match l.snapshot with
  | some (si, _) => si
  | none => 0

/-- Modelled from the spec: `log__term_of` of the missing `log.c` — 0 for
index 0, for indices above `log__last_index`, and for indices below the
oldest index whose term is known; the entry's term for outstanding indices;
the explicitly retained snapshot term for the snapshot's last index. -/
def log__term_of (l : RaftLog) (index : Nat) : Nat :=
  if index = 0 then 0
  else if log__last_index l < index then 0
  else if l.offset < index then
    match l.entries.get? (index - l.offset - 1) with
    | some e => e.term
    | none => 0
  else
    match l.snapshot with
    | some (si, st) => if index = si then st else 0
    | none => 0

/-- Modelled from the spec: `log__last_term` of the missing `log.c` — the
term of the entry at `log__last_index`, 0 for an empty log. -/
def log__last_term (l : RaftLog) : Nat :=
  log__term_of l (log__last_index l)

/-- Modelled from the spec: `log__get` of the missing `log.c` — the entry at
the given index, or `none` outside the outstanding range. -/
def log__get (l : RaftLog) (index : Nat) : Option RaftEntry :=
  if l.offset < index then l.entries.get? (index - l.offset - 1) else none

/-- Modelled from the spec: the success path of `log__append` of the missing
`log.c` — one entry is added at the tail; its payload is adopted either into
a fresh batch (`batchArg = none`, reference count 1) or into the
caller-supplied batch whose reference count is incremented. -/
def appendOk (l : RaftLog) (term ty : Nat) (buf : List Nat)
    (batchArg : Option Nat) : RaftLog :=
  match batchArg with
  | none =>
      { l with
        entries := l.entries ++ [⟨term, ty, buf, l.nextBatch⟩],
        batches := bumpRef l.batches l.nextBatch,
        nextBatch := l.nextBatch + 1 }
  | some bid =>
      { l with
        entries := l.entries ++ [⟨term, ty, buf, bid⟩],
        batches := bumpRef l.batches bid }

/-- The out-of-memory error code returned by the modelled `log__append`
(any fixed nonzero value; the numeric value used by `raft.h` is not in
`src/`). -/
def RAFT_ENOMEM : Nat := 1

/-- Modelled from the spec: `log__append` of the missing `log.c`.  The two
booleans are the allocation oracle: whether growing the entry store
succeeds and whether allocating/adopting the batch succeeds.  On any
allocation failure the call reports `RAFT_ENOMEM` and returns the log
unchanged; on success it returns 0 and the extended log. -/
def log__append (l : RaftLog) (term ty : Nat) (buf : List Nat)
    (batchArg : Option Nat) (growOk batchOk : Bool) : Nat × RaftLog :=
  if growOk then
    if batchOk then (0, appendOk l term ty buf batchArg)
    else (RAFT_ENOMEM, l)
  else (RAFT_ENOMEM, l)

/-- Modelled from the spec: `log__acquire` of the missing `log.c` — returns
the outstanding entries from `index` through the last index and increments
the acquire count of each returned index by one, recording the entry's
batch in the fresh cells. -/
def log__acquire (l : RaftLog) (index : Nat) : List RaftEntry × RaftLog :=
  let es := l.entries.drop (index - l.offset - 1)
  (es,
    { l with
      refs := (withIndexFrom index es).foldl
        (fun r p => bumpAcq r p.1 p.2.batch) l.refs })

/-- One step of `log__release`: decrement the acquire count of index `k`;
when the count reaches zero and the index is no longer in the outstanding
store, the batch of the released entry loses one reference (freeing its
memory when the count reaches zero). -/
def releaseStep (st : RaftLog) (k : Nat) (e : RaftEntry) : RaftLog :=
  let c := acqCount st.refs k
  if c = 1 ∧ ¬(st.offset < k ∧ k ≤ st.offset + st.entries.length) then
    { st with refs := decAcq st.refs k,
              batches := decRefFree st.batches e.batch }
  else
    { st with refs := decAcq st.refs k }

/-- Modelled from the spec: `log__release` of the missing `log.c` — release
a previously acquired array of entries starting at `index`. -/
def log__release (st : RaftLog) (index : Nat) (es : List RaftEntry) : RaftLog :=
  (withIndexFrom index es).foldl (fun s p => releaseStep s p.1 p.2) st

/-- Deferred-free bookkeeping shared by truncate and snapshot compaction:
every removed entry whose index has acquire count zero costs its batch one
reference (freeing the batch at zero); entries still acquired keep their
batch alive until released. -/
def evictBatches (r : List (Nat × Nat × Nat)) :
    List (Nat × Nat) → List (Nat × RaftEntry) → List (Nat × Nat)
  | bs, [] => bs
  | bs, p :: rest =>
      evictBatches r
        (if acqCount r p.1 = 0 then decRefFree bs p.2.batch else bs) rest

/-- Modelled from the spec: `log__truncate` of the missing `log.c` — delete
all entries from `index` (included) onwards; removed entries follow the
acquire-count-gated free path. -/
def log__truncate (l : RaftLog) (index : Nat) : RaftLog :=
  { l with
    entries := l.entries.take (index - l.offset - 1),
    batches := evictBatches l.refs l.batches
      ((entriesWithIndex l).drop (index - l.offset - 1)) }

/-- Modelled from the spec: `log__discard` of the missing `log.c` — same
logical effect on the store as `log__truncate`, but the batch refcount
bookkeeping is bypassed: no batch memory is released. -/
def log__discard (l : RaftLog) (index : Nat) : RaftLog :=
  { l with entries := l.entries.take (index - l.offset - 1) }

/-- Modelled from the spec: `log__snapshot` of the missing `log.c` — record
a snapshot at `last_index` (whose term is captured before any deletion);
when an entry exists at `last_index - trailing`, delete all entries up to
that index (inclusive) through the acquire-count-gated free path, otherwise
delete nothing but still update the snapshot metadata. -/
def log__snapshot (l : RaftLog) (last_index trailing : Nat) : RaftLog :=
  let cut := last_index - trailing
  let snapTerm := log__term_of l last_index
  if l.offset < cut ∧ cut ≤ l.offset + l.entries.length then
    { l with
      entries := l.entries.drop (cut - l.offset),
      offset := cut,
      snapshot := some (last_index, snapTerm),
      batches := evictBatches l.refs l.batches
        ((entriesWithIndex l).take (cut - l.offset)) }
  else
    { l with snapshot := some (last_index, snapTerm) }

/-- Modelled from the spec: `log__restore` of the missing `log.c` — discard
every outstanding entry, set the snapshot metadata to the given pair and
realign the offset so the log is logically empty except for the snapshot
watermark. -/
def log__restore (l : RaftLog) (last_index last_term : Nat) : RaftLog :=
  { l with
    entries := [],
    offset := last_index,
    snapshot := some (last_index, last_term) }

/-- Modelled from the spec: `log__seek` of the missing `log.c` — adjust the
offset only, so that entries subsequently replayed from disk receive the
right indices (used once at startup on an empty log). -/
def log__seek (l : RaftLog) (start_index : Nat) : RaftLog :=
  { l with offset := start_index }

example :
    log__last_index
      (appendOk (log__seek log__init 10) 1 0 [] none) = 11 := by decide

example :
    log__get (appendOk (log__seek log__init 10) 1 0 [] none) 10 = none := by
  decide

example :
    log__last_index
      (log__truncate
        (appendOk (appendOk (appendOk log__init 1 0 [] none) 1 0 [] none)
          1 0 [] none) 3) = 2 := by decide

/-! ## Derived notions used to state the claims -/

/-- The oldest index whose term the log still knows: the smallest index that
is either outstanding or equal to the snapshot's last index (whose term is
retained explicitly); 0 when nothing is known. -/
def oldestKnownIndex (l : RaftLog) : Nat :=
  match l.entries, l.snapshot with
  | [], none => 0
  | [], some (si, _) => si
  | _ :: _, none => l.offset + 1
  | _ :: _, some (si, _) => min si (l.offset + 1)

/-- Number of store cells (index/entry pairs) backed by batch `b` whose index
currently has acquire count zero: these are the cells whose batch reference
is held by the store alone. -/
def storeContrib (ps : List (Nat × RaftEntry)) (r : List (Nat × Nat × Nat))
    (b : Nat) : Nat :=
  ps.countP (fun p => decide (p.2.batch = b ∧ acqCount r p.1 = 0))

/-- Number of store cells (index/entry pairs) backed by batch `b`, whatever
their acquire status. -/
def storeAll (l : RaftLog) (b : Nat) : Nat :=
  (entriesWithIndex l).countP (fun p => decide (p.2.batch = b))

/-- The batch-refcount discipline of the spec's data model ("refcount:
number of entries from this batch still either stored in the log or
acquired"): every batch holds at least as many references as it has entries
currently stored in the log, and the batch table has no duplicate keys.
Evicted-but-still-acquired entries only add further references on top of
this lower bound, so it holds in every state of a contract-respecting
execution — including states where an index was truncated away while
acquired and then re-appended from a fresh batch. -/
def BatchesInv (l : RaftLog) : Prop :=
  (∀ b ∈ l.entries.map RaftEntry.batch, storeAll l b ≤ refOf l.batches b) ∧
    (l.batches.map Prod.fst).Nodup

instance (l : RaftLog) : Decidable (BatchesInv l) :=
  inferInstanceAs (Decidable
    ((∀ b ∈ l.entries.map RaftEntry.batch,
        storeAll l b ≤ refOf l.batches b) ∧
      (l.batches.map Prod.fst).Nodup))

/-- How many of the acquired (index, entry) pairs `ps` are backed by
batch `b`. -/
def heldCount (ps : List (Nat × RaftEntry)) (b : Nat) : Nat :=
  ps.countP (fun p => decide (p.2.batch = b))

/-- Invariant carried across the operations interleaved between an acquire
of the pairs `ps` and the matching release: every batch holds one reference
for each stored entry at an unacquired index plus one for each acquired
pair it backs.  Truncate, discard and snapshot consume references only for
removed entries whose index has acquire count zero, so the references
reserved for the acquired pairs survive every interleaving. -/
def HeldInv (ps : List (Nat × RaftEntry)) (st : RaftLog) : Prop :=
  (∀ b ∈ st.entries.map RaftEntry.batch ++ ps.map (fun p => p.2.batch),
    storeContrib (entriesWithIndex st) st.refs b + heldCount ps b ≤
      refOf st.batches b) ∧
    (st.batches.map Prod.fst).Nodup

/-- Well-formedness of the sparse acquire table: only positive counts are
stored (an index with count zero simply has no cell). -/
def RefsWF (l : RaftLog) : Prop := ∀ q ∈ l.refs, 1 ≤ q.2.1

instance (l : RaftLog) : Decidable (RefsWF l) :=
  inferInstanceAs (Decidable (∀ q ∈ l.refs, 1 ≤ q.2.1))

/-- The mutating operations that may be interleaved between an acquire and
its matching release in claim C1. -/
inductive LogOp where
  | trunc (index : Nat)
  | disc (index : Nat)
  | snap (last_index trailing : Nat)
deriving DecidableEq, Repr

/-- Apply one interleaved operation. -/
def applyOp (l : RaftLog) : LogOp → RaftLog
  | LogOp.trunc i => log__truncate l i
  | LogOp.disc i => log__discard l i
  | LogOp.snap li t => log__snapshot l li t

/-- Apply a sequence of interleaved operations, oldest first. -/
def applyOps : RaftLog → List LogOp → RaftLog
  | l, [] => l
  | l, op :: ops => applyOps (applyOp l op) ops

/-- The operations of claim C3's amended statement: appends (always with a
fresh batch) and truncations. -/
inductive ATOp where
  | app (term ty : Nat) (buf : List Nat)
  | trunc (index : Nat)
deriving DecidableEq, Repr

/-- Apply one append-or-truncate operation. -/
def applyAT (l : RaftLog) : ATOp → RaftLog
  | ATOp.app t ty buf => appendOk l t ty buf none
  | ATOp.trunc i => log__truncate l i

/-- Apply a sequence of append-or-truncate operations, oldest first. -/
def atApplied : RaftLog → List ATOp → RaftLog
  | l, [] => l
  | l, op :: ops => atApplied (applyAT l op) ops

/-- Number of entries appended by a sequence of operations. -/
def atAppended : List ATOp → Nat
  | [] => 0
  | ATOp.app _ _ _ :: ops => atAppended ops + 1
  | ATOp.trunc _ :: ops => atAppended ops

/-- Number of entries `log__truncate l index` actually removes. -/
def removedBy (l : RaftLog) (index : Nat) : Nat :=
  l.entries.length - (index - l.offset - 1)

/-- Number of entries truncated away over a sequence of operations applied
to `l`. -/
def atRemoved : RaftLog → List ATOp → Nat
  | _, [] => 0
  | l, ATOp.app t ty buf :: ops => atRemoved (applyAT l (ATOp.app t ty buf)) ops
  | l, ATOp.trunc i :: ops => removedBy l i + atRemoved (log__truncate l i) ops

/-- The log states reachable by the documented contract of each operation:
appends carry a positive raft term; truncate and discard are invoked above
the snapshot coverage; a snapshot is taken at an outstanding index; restore
installs a real snapshot (positive index and term); seek is the one-time
startup realignment of an empty, snapshot-free log.  Acquire and release may
happen anywhere. -/
inductive Reachable : RaftLog → Prop where
  | init : Reachable log__init
  | app {l term ty buf} : Reachable l → 1 ≤ term →
      Reachable (appendOk l term ty buf none)
  | acq {l i} : Reachable l → l.offset < i → Reachable (log__acquire l i).2
  | rel {l i es} : Reachable l → Reachable (log__release l i es)
  | trunc {l i} : Reachable l → log__snapshot_index l < i →
      Reachable (log__truncate l i)
  | disc {l i} : Reachable l → log__snapshot_index l < i →
      Reachable (log__discard l i)
  | snap {l li t} : Reachable l → l.offset < li →
      li ≤ l.offset + l.entries.length → Reachable (log__snapshot l li t)
  | restore {l li lt} : Reachable l → 1 ≤ li → 1 ≤ lt →
      Reachable (log__restore l li lt)
  | seek {l i} : Reachable l → l.entries = [] → l.snapshot = none →
      Reachable (log__seek l i)

/-- Structural invariant of reachable states: all stored terms are positive,
and the snapshot metadata is consistent with the offset and the store. -/
def GoodLog (l : RaftLog) : Prop :=
  (∀ e ∈ l.entries, 1 ≤ e.term) ∧
    (∀ si st, l.snapshot = some (si, st) →
      1 ≤ st ∧ 1 ≤ si ∧ l.offset ≤ si ∧ si ≤ l.offset + l.entries.length ∧
        (l.entries = [] → l.offset = si))

/-! ## Concrete fixture states used by witnesses and counterexamples -/

/-- Three command entries of term 1 appended to the empty log
(indices 1, 2, 3; fresh batches 0, 1, 2). -/
def sampleLog3 : RaftLog :=
  appendOk (appendOk (appendOk log__init 1 0 [10] none) 1 0 [11] none)
    1 0 [12] none

/-- `sampleLog3` with index 1 already acquired once (an acquirer is still
outstanding). -/
def sampleLogAcquired : RaftLog := (log__acquire sampleLog3 1).2

/-- A state the acquire/release contract sanctions and that the spec's
role-change scenario produces: one entry appended and acquired, truncated
away while still acquired (its batch memory is kept alive for the
acquirer), and a fresh entry re-appended at the same index 1 from a new
batch.  The acquire-table cell for index 1 still records the old entry's
batch. -/
def sampleLogReappended : RaftLog :=
  appendOk
    (log__truncate (log__acquire (appendOk log__init 1 0 [10] none) 1).2 1)
    1 0 [11] none

/-! ## Indexed-entry list lemmas -/

theorem withIndexFrom_length (es : List RaftEntry) (i : Nat) :
    (withIndexFrom i es).length = es.length := by
  induction es generalizing i with
  | nil => rfl
  | cons e es ih => simp [withIndexFrom, ih]

theorem withIndexFrom_bounds {es : List RaftEntry} {i : Nat}
    {p : Nat × RaftEntry} (h : p ∈ withIndexFrom i es) :
    i ≤ p.1 ∧ p.1 < i + es.length := by
  induction es generalizing i with
  | nil => simp [withIndexFrom] at h
  | cons e es ih =>
    simp only [withIndexFrom, List.mem_cons] at h
    rcases h with h | h
    · subst h; simp
    · obtain ⟨h1, h2⟩ := ih h
      simp only [List.length_cons]
      constructor <;> omega

theorem mem_keys_withIndexFrom {es : List RaftEntry} {i k : Nat}
    (h1 : i ≤ k) (h2 : k < i + es.length) :
    k ∈ (withIndexFrom i es).map Prod.fst := by
  induction es generalizing i with
  | nil => simp at h2; omega
  | cons e es ih =>
    simp only [withIndexFrom, List.map_cons, List.mem_cons]
    rcases Nat.eq_or_lt_of_le h1 with h | h
    · exact Or.inl h.symm
    · right
      exact ih h (by simp at h2 ⊢; omega)

theorem withIndexFrom_take (es : List RaftEntry) (i k : Nat) :
    withIndexFrom i (es.take k) = (withIndexFrom i es).take k := by
  induction es generalizing i k with
  | nil => simp [withIndexFrom]
  | cons e es ih =>
    cases k with
    | zero => simp [withIndexFrom]
    | succ k => simp [withIndexFrom, ih]

theorem withIndexFrom_drop (es : List RaftEntry) (i k : Nat) :
    withIndexFrom (i + k) (es.drop k) = (withIndexFrom i es).drop k := by
  induction es generalizing i k with
  | nil => simp [withIndexFrom]
  | cons e es ih =>
    cases k with
    | zero => simp [withIndexFrom]
    | succ k =>
      simp only [List.drop_succ_cons, withIndexFrom, List.drop]
      have := ih (i + 1) k
      rw [← this]
      congr 1
      omega

theorem withIndexFrom_get? {es : List RaftEntry} {i k : Nat} {e : RaftEntry}
    (h : (k, e) ∈ withIndexFrom i es) :
    i ≤ k ∧ es.get? (k - i) = some e := by
  induction es generalizing i with
  | nil => simp [withIndexFrom] at h
  | cons f es ih =>
    simp only [withIndexFrom, List.mem_cons] at h
    rcases h with h | h
    · have h1 : k = i ∧ e = f := by
        constructor
        · exact congrArg Prod.fst h
        · exact congrArg Prod.snd h
      rcases h1 with ⟨h1, h2⟩
      subst h1; subst h2
      simp
    · have := ih h
      have hk : i + 1 ≤ k := this.1
      refine ⟨by omega, ?_⟩
      have : es.get? (k - (i + 1)) = some e := this.2
      have hpos : k - i = (k - (i + 1)) + 1 := by omega
      rw [hpos]
      simpa using this

theorem keys_nodup_withIndexFrom (es : List RaftEntry) (i : Nat) :
    ((withIndexFrom i es).map Prod.fst).Nodup := by
  induction es generalizing i with
  | nil => simp [withIndexFrom]
  | cons e es ih =>
    simp only [withIndexFrom, List.map_cons, List.nodup_cons]
    refine ⟨?_, ih (i + 1)⟩
    intro hmem
    rcases List.mem_map.1 hmem with ⟨p, hp, hpk⟩
    have := withIndexFrom_bounds hp
    omega

/-! ## Batch-table lemmas -/

theorem refOf_eq_zero_of_not_mem {bs : List (Nat × Nat)} {b : Nat}
    (h : b ∉ bs.map Prod.fst) : refOf bs b = 0 := by
  induction bs with
  | nil => rfl
  | cons cell rest ih =>
    obtain ⟨b0, c⟩ := cell
    simp only [List.map_cons, List.mem_cons, not_or] at h
    simp only [refOf, if_neg h.1]
    exact ih h.2

theorem decRefFree_keys_sublist (bs : List (Nat × Nat)) (b : Nat) :
    ((decRefFree bs b).map Prod.fst).Sublist (bs.map Prod.fst) := by
  induction bs with
  | nil => simp [decRefFree]
  | cons cell rest ih =>
    obtain ⟨b0, c⟩ := cell
    by_cases hb : b = b0
    · by_cases hc : c ≤ 1
      · simp only [decRefFree, if_pos hb, if_pos hc, List.map_cons]
        exact (List.Sublist.refl _).cons _
      · simp only [decRefFree, if_pos hb, if_neg hc, List.map_cons]
        exact (List.Sublist.refl _).cons₂ _
    · simp only [decRefFree, if_neg hb, List.map_cons]
      exact ih.cons₂ _

theorem decRefFree_keys_nodup {bs : List (Nat × Nat)} (b : Nat)
    (h : (bs.map Prod.fst).Nodup) :
    ((decRefFree bs b).map Prod.fst).Nodup :=
  h.sublist (decRefFree_keys_sublist bs b)

theorem refOf_decRefFree {bs : List (Nat × Nat)}
    (hnd : (bs.map Prod.fst).Nodup) (b0 b : Nat) :
    refOf (decRefFree bs b0) b =
      if b = b0 then refOf bs b - 1 else refOf bs b := by
  induction bs with
  | nil => simp [decRefFree, refOf]
  | cons cell rest ih =>
    obtain ⟨b1, c⟩ := cell
    simp only [List.map_cons, List.nodup_cons] at hnd
    obtain ⟨hb1, hrest⟩ := hnd
    by_cases h0 : b0 = b1
    · subst h0
      by_cases hc : c ≤ 1
      · simp only [decRefFree, if_pos rfl, if_pos hc]
        by_cases hb : b = b0
        · subst hb
          have hz : refOf rest b = 0 := refOf_eq_zero_of_not_mem hb1
          simp [refOf, hz]
          omega
        · simp [refOf, hb]
      · simp only [decRefFree, if_pos rfl, if_neg hc]
        by_cases hb : b = b0
        · subst hb; simp [refOf]
        · simp [refOf, hb]
    · have hne : ¬b0 = b1 := h0
      simp only [decRefFree, if_neg hne]
      by_cases hb : b = b1
      · subst hb
        have : ¬b = b0 := fun h => hne (by rw [← h])
        simp [refOf, this]
      · simp only [refOf, if_neg hb]
        exact ih hrest

/-! ## Acquire-table lemmas -/

theorem acqCount_eq_ghost (r : List (Nat × Nat × Nat)) (k : Nat) :
    acqCount r k = (acqGhost r k).elim 0 Prod.fst := by
  induction r with
  | nil => rfl
  | cons q rest ih =>
    obtain ⟨i, c, b⟩ := q
    by_cases h : k = i <;> simp [acqCount, acqGhost, h, ih]

theorem acqGhost_bumpAcq_self (r : List (Nat × Nat × Nat)) (k b : Nat) :
    acqGhost (bumpAcq r k b) k =
      some ((acqGhost r k).elim 0 Prod.fst + 1, (acqGhost r k).elim b Prod.snd) := by
  induction r with
  | nil => simp [bumpAcq, acqGhost]
  | cons q rest ih =>
    obtain ⟨i, c, b0⟩ := q
    by_cases h : k = i <;> simp [bumpAcq, acqGhost, h, ih]

theorem acqGhost_bumpAcq_ne {r : List (Nat × Nat × Nat)} {k km : Nat} (b : Nat)
    (h : km ≠ k) : acqGhost (bumpAcq r k b) km = acqGhost r km := by
  induction r with
  | nil => simp [bumpAcq, acqGhost, h]
  | cons q rest ih =>
    obtain ⟨i, c, b0⟩ := q
    by_cases hk : k = i
    · subst hk
      simp [bumpAcq, acqGhost, h]
    · by_cases hm : km = i <;> simp [bumpAcq, acqGhost, hk, hm, ih]

theorem acqCount_bumpAcq (r : List (Nat × Nat × Nat)) (k b km : Nat) :
    acqCount (bumpAcq r k b) km =
      if km = k then acqCount r k + 1 else acqCount r km := by
  by_cases h : km = k
  · subst h
    rw [acqCount_eq_ghost, acqGhost_bumpAcq_self]
    simp [acqCount_eq_ghost]
  · rw [if_neg h, acqCount_eq_ghost, acqGhost_bumpAcq_ne b h, ← acqCount_eq_ghost]

theorem bumpAcq_wf {r : List (Nat × Nat × Nat)} (k b : Nat)
    (h : ∀ q ∈ r, 1 ≤ q.2.1) : ∀ q ∈ bumpAcq r k b, 1 ≤ q.2.1 := by
  induction r with
  | nil =>
    intro q hq
    simp only [bumpAcq, List.mem_singleton] at hq
    subst hq; simp
  | cons p rest ih =>
    obtain ⟨i, c, b0⟩ := p
    intro q hq
    by_cases hk : k = i
    · rw [bumpAcq, if_pos hk] at hq
      rcases List.mem_cons.1 hq with h1 | h1
      · subst h1; simp
      · exact h q (List.mem_cons_of_mem _ h1)
    · rw [bumpAcq, if_neg hk] at hq
      rcases List.mem_cons.1 hq with h1 | h1
      · subst h1
        exact h _ (List.mem_cons_self _ _)
      · exact ih (fun p hp => h p (List.mem_cons_of_mem _ hp)) q h1

theorem decAcq_bumpAcq {r : List (Nat × Nat × Nat)} (k b : Nat)
    (h : ∀ q ∈ r, 1 ≤ q.2.1) : decAcq (bumpAcq r k b) k = r := by
  induction r with
  | nil => simp [bumpAcq, decAcq]
  | cons q rest ih =>
    obtain ⟨i, c, b0⟩ := q
    by_cases hk : k = i
    · have hc : 1 ≤ c := h _ (List.mem_cons_self _ _)
      rw [bumpAcq, if_pos hk, decAcq, if_pos hk]
      have : ¬c + 1 ≤ 1 := by omega
      simp [this]
    · rw [bumpAcq, if_neg hk, decAcq, if_neg hk]
      rw [ih (fun p hp => h p (List.mem_cons_of_mem _ hp))]

theorem decAcq_bumpAcq_comm {r : List (Nat × Nat × Nat)} {k km : Nat} (b : Nat)
    (h : km ≠ k) : decAcq (bumpAcq r k b) km = bumpAcq (decAcq r km) k b := by
  induction r with
  | nil => simp [bumpAcq, decAcq, h, Ne.symm h]
  | cons q rest ih =>
    obtain ⟨i, c, b0⟩ := q
    by_cases hk : k = i
    · subst hk
      simp [bumpAcq, decAcq, h]
    · by_cases hm : km = i
      · subst hm
        by_cases hc : c ≤ 1 <;>
          simp [bumpAcq, decAcq, hk, hc, Ne.symm hk]
      · simp [bumpAcq, decAcq, hk, hm, ih]

/-! ## Acquire/release fold lemmas -/

theorem acqCount_acqFold (ps : List (Nat × RaftEntry))
    (r : List (Nat × Nat × Nat)) (hnd : (ps.map Prod.fst).Nodup) (km : Nat) :
    acqCount (ps.foldl (fun r p => bumpAcq r p.1 p.2.batch) r) km =
      if km ∈ ps.map Prod.fst then acqCount r km + 1 else acqCount r km := by
  induction ps generalizing r with
  | nil => simp
  | cons p ps ih =>
    simp only [List.map_cons, List.nodup_cons] at hnd
    obtain ⟨hp, hnd⟩ := hnd
    simp only [List.foldl_cons]
    rw [ih _ hnd]
    by_cases hk : km = p.1
    · subst hk
      simp [hp, acqCount_bumpAcq]
    · by_cases hmem : km ∈ ps.map Prod.fst <;>
        simp [hmem, hk, acqCount_bumpAcq]

theorem decAcq_acqFold_comm (ps : List (Nat × RaftEntry))
    (r : List (Nat × Nat × Nat)) {k : Nat} (hk : k ∉ ps.map Prod.fst) :
    decAcq (ps.foldl (fun r p => bumpAcq r p.1 p.2.batch) r) k =
      ps.foldl (fun r p => bumpAcq r p.1 p.2.batch) (decAcq r k) := by
  induction ps generalizing r with
  | nil => simp
  | cons p ps ih =>
    simp only [List.map_cons, List.mem_cons, not_or] at hk
    simp only [List.foldl_cons]
    rw [ih _ hk.2, decAcq_bumpAcq_comm _ hk.1]

theorem decFold_acqFold (ps : List (Nat × RaftEntry))
    (r : List (Nat × Nat × Nat)) (hnd : (ps.map Prod.fst).Nodup)
    (hwf : ∀ q ∈ r, 1 ≤ q.2.1) :
    ps.foldl (fun r p => decAcq r p.1)
      (ps.foldl (fun r p => bumpAcq r p.1 p.2.batch) r) = r := by
  induction ps generalizing r with
  | nil => simp
  | cons p ps ih =>
    simp only [List.map_cons, List.nodup_cons] at hnd
    obtain ⟨hp, hnd⟩ := hnd
    simp only [List.foldl_cons]
    rw [decAcq_acqFold_comm _ _ hp, decAcq_bumpAcq _ _ hwf]
    exact ih _ hnd hwf

theorem release_foldl_inStore (ps : List (Nat × RaftEntry)) (st : RaftLog)
    (h : ∀ p ∈ ps, st.offset < p.1 ∧ p.1 ≤ st.offset + st.entries.length) :
    ps.foldl (fun s p => releaseStep s p.1 p.2) st =
      { st with refs := ps.foldl (fun r p => decAcq r p.1) st.refs } := by
  induction ps generalizing st with
  | nil => simp
  | cons p ps ih =>
    simp only [List.foldl_cons]
    have hin := h p (List.mem_cons_self _ _)
    have hcond : ¬(acqCount st.refs p.1 = 1 ∧
        ¬(st.offset < p.1 ∧ p.1 ≤ st.offset + st.entries.length)) := by
      intro hcon
      exact hcon.2 hin
    have hstep : releaseStep st p.1 p.2 = { st with refs := decAcq st.refs p.1 } := by
      simp only [releaseStep]
      rw [if_neg hcond]
    rw [hstep]
    exact ih _ (fun q hq => h q (List.mem_cons_of_mem _ hq))

theorem acquire_release_roundtrip (l : RaftLog) (i : Nat)
    (hwf : RefsWF l) (hi : l.offset < i) :
    log__release (log__acquire l i).2 i (log__acquire l i).1 = l := by
  have hsnd : (log__acquire l i).2 = { l with refs := (withIndexFrom i (l.entries.drop (i - l.offset - 1))).foldl (fun r p => bumpAcq r p.1 p.2.batch) l.refs } := rfl
  have hfst : (log__acquire l i).1 = l.entries.drop (i - l.offset - 1) := rfl
  rw [hsnd, hfst, log__release]
  set es := l.entries.drop (i - l.offset - 1) with hes
  set ps := withIndexFrom i es with hps
  set l1 : RaftLog := { l with refs := ps.foldl (fun r p => bumpAcq r p.1 p.2.batch) l.refs } with hl1
  have hlen : es.length = l.entries.length - (i - l.offset - 1) := by
    rw [hes]; exact List.length_drop _ _
  have hbounds : ∀ p ∈ ps, l1.offset < p.1 ∧
      p.1 ≤ l1.offset + l1.entries.length := by
    intro p hp
    have hb := withIndexFrom_bounds hp
    have : l1.offset = l.offset := rfl
    have h2 : l1.entries = l.entries := rfl
    rw [this, h2]
    omega
  rw [release_foldl_inStore ps l1 hbounds]
  have hrefs : ps.foldl (fun r p => decAcq r p.1) l1.refs = l.refs := by
    have : l1.refs = ps.foldl (fun r p => bumpAcq r p.1 p.2.batch) l.refs := rfl
    rw [this]
    exact decFold_acqFold ps l.refs (keys_nodup_withIndexFrom es i) hwf
  rw [hrefs]

/-! ## Deferred-free accounting lemmas -/

theorem evictBatches_keys_nodup (r : List (Nat × Nat × Nat))
    {bs : List (Nat × Nat)} (ps : List (Nat × RaftEntry))
    (hnd : (bs.map Prod.fst).Nodup) :
    ((evictBatches r bs ps).map Prod.fst).Nodup := by
  induction ps generalizing bs with
  | nil => simpa [evictBatches] using hnd
  | cons p ps ih =>
    simp only [evictBatches]
    by_cases h : acqCount r p.1 = 0
    · simp only [if_pos h]
      exact ih (decRefFree_keys_nodup _ hnd)
    · simp only [if_neg h]
      exact ih hnd

theorem refOf_evictBatches (r : List (Nat × Nat × Nat))
    {bs : List (Nat × Nat)} (ps : List (Nat × RaftEntry))
    (hnd : (bs.map Prod.fst).Nodup) (b : Nat) :
    refOf bs b ≤ refOf (evictBatches r bs ps) b + storeContrib ps r b := by
  induction ps generalizing bs with
  | nil => simp [evictBatches, storeContrib]
  | cons p ps ih =>
    simp only [evictBatches, storeContrib, List.countP_cons]
    by_cases hacq : acqCount r p.1 = 0
    · simp only [if_pos hacq]
      by_cases hb : p.2.batch = b
      · have hd : refOf (decRefFree bs p.2.batch) b = refOf bs b - 1 := by
          rw [refOf_decRefFree hnd]
          simp [hb]
        have := ih (decRefFree_keys_nodup p.2.batch hnd)
        rw [hd] at this
        have hind : (fun p => decide (p.2.batch = b ∧ acqCount r p.1 = 0)) p = true := by
          simp [hb, hacq]
        rw [storeContrib] at this
        simp only [hind, if_true]
        omega
      · have hd : refOf (decRefFree bs p.2.batch) b = refOf bs b := by
          rw [refOf_decRefFree hnd, if_neg (fun h => hb h.symm)]
        have := ih (decRefFree_keys_nodup p.2.batch hnd)
        rw [hd] at this
        rw [storeContrib] at this
        have hind : (fun p => decide (p.2.batch = b ∧ acqCount r p.1 = 0)) p = false := by
          simp [hb]
        simp only [hind]
        omega
    · simp only [if_neg hacq]
      have := ih hnd
      rw [storeContrib] at this
      have hind : (fun p => decide (p.2.batch = b ∧ acqCount r p.1 = 0)) p = false := by
        simp [hacq]
      simp only [hind]
      omega

theorem storeContrib_split (ps : List (Nat × RaftEntry))
    (r : List (Nat × Nat × Nat)) (b k : Nat) :
    storeContrib ps r b =
      storeContrib (ps.take k) r b + storeContrib (ps.drop k) r b := by
  rw [storeContrib, storeContrib, storeContrib, ← List.countP_append,
    List.take_append_drop]

theorem heldInv_truncate {ps : List (Nat × RaftEntry)} {l : RaftLog}
    (h : HeldInv ps l) (i : Nat) : HeldInv ps (log__truncate l i) := by
  obtain ⟨hbound, hnd⟩ := h
  constructor
  · intro b hb
    have hbl : b ∈ l.entries.map RaftEntry.batch ++
        ps.map (fun p => p.2.batch) := by
      rcases List.mem_append.1 hb with hb | hb
      · rcases List.mem_map.1 hb with ⟨e, he, hbe⟩
        exact List.mem_append.2
          (Or.inl (List.mem_map.2 ⟨e, List.mem_of_mem_take he, hbe⟩))
      · exact List.mem_append.2 (Or.inr hb)
    have hc := hbound b hbl
    have hsplit := storeContrib_split (entriesWithIndex l) l.refs b
      (i - l.offset - 1)
    have hevict := refOf_evictBatches l.refs
      ((entriesWithIndex l).drop (i - l.offset - 1)) hnd b
    have htake : entriesWithIndex (log__truncate l i) =
        (entriesWithIndex l).take (i - l.offset - 1) := by
      rw [entriesWithIndex, entriesWithIndex]
      exact withIndexFrom_take _ _ _
    rw [htake]
    rw [show (log__truncate l i).refs = l.refs from rfl]
    rw [show (log__truncate l i).batches = evictBatches l.refs l.batches ((entriesWithIndex l).drop (i - l.offset - 1)) from rfl]
    rw [hsplit] at hc
    omega
  · exact evictBatches_keys_nodup _ _ hnd

theorem heldInv_discard {ps : List (Nat × RaftEntry)} {l : RaftLog}
    (h : HeldInv ps l) (i : Nat) : HeldInv ps (log__discard l i) := by
  obtain ⟨hbound, hnd⟩ := h
  refine ⟨?_, hnd⟩
  intro b hb
  have hbl : b ∈ l.entries.map RaftEntry.batch ++
      ps.map (fun p => p.2.batch) := by
    rcases List.mem_append.1 hb with hb | hb
    · rcases List.mem_map.1 hb with ⟨e, he, hbe⟩
      exact List.mem_append.2
        (Or.inl (List.mem_map.2 ⟨e, List.mem_of_mem_take he, hbe⟩))
    · exact List.mem_append.2 (Or.inr hb)
  have hc := hbound b hbl
  have hsplit := storeContrib_split (entriesWithIndex l) l.refs b
    (i - l.offset - 1)
  have htake : entriesWithIndex (log__discard l i) =
      (entriesWithIndex l).take (i - l.offset - 1) := by
    rw [entriesWithIndex, entriesWithIndex]
    exact withIndexFrom_take _ _ _
  rw [htake]
  rw [show (log__discard l i).refs = l.refs from rfl]
  rw [show (log__discard l i).batches = l.batches from rfl]
  rw [hsplit] at hc
  omega

theorem heldInv_snapshot {ps : List (Nat × RaftEntry)} {l : RaftLog}
    (h : HeldInv ps l) (li t : Nat) : HeldInv ps (log__snapshot l li t) := by
  obtain ⟨hbound, hnd⟩ := h
  by_cases hcond : l.offset < li - t ∧ li - t ≤ l.offset + l.entries.length
  · have hs : log__snapshot l li t = { l with
        entries := l.entries.drop (li - t - l.offset),
        offset := li - t,
        snapshot := some (li, log__term_of l li),
        batches := evictBatches l.refs l.batches
          ((entriesWithIndex l).take (li - t - l.offset)) } := by
      simp only [log__snapshot]
      rw [if_pos hcond]
    rw [hs]
    constructor
    · intro b hb
      have hbl : b ∈ l.entries.map RaftEntry.batch ++
          ps.map (fun p => p.2.batch) := by
        rcases List.mem_append.1 hb with hb | hb
        · rcases List.mem_map.1 hb with ⟨e, he, hbe⟩
          have hee : e ∈ l.entries := List.mem_of_mem_drop he
          exact List.mem_append.2 (Or.inl (List.mem_map.2 ⟨e, hee, hbe⟩))
        · exact List.mem_append.2 (Or.inr hb)
      have hc := hbound b hbl
      have hsplit := storeContrib_split (entriesWithIndex l) l.refs b
        (li - t - l.offset)
      have hevict := refOf_evictBatches l.refs
        ((entriesWithIndex l).take (li - t - l.offset)) hnd b
      have hdrop : withIndexFrom (li - t + 1)
          (l.entries.drop (li - t - l.offset)) =
          (entriesWithIndex l).drop (li - t - l.offset) := by
        rw [entriesWithIndex, ← withIndexFrom_drop]
        congr 1
        omega
      rw [show entriesWithIndex { l with
        entries := l.entries.drop (li - t - l.offset),
        offset := li - t,
        snapshot := some (li, log__term_of l li),
        batches := evictBatches l.refs l.batches
          ((entriesWithIndex l).take (li - t - l.offset)) } =
          withIndexFrom (li - t + 1) (l.entries.drop (li - t - l.offset))
        from rfl]
      rw [hdrop]
      dsimp only
      rw [hsplit] at hc
      omega
    · exact evictBatches_keys_nodup _ _ hnd
  · have hs : log__snapshot l li t =
        { l with snapshot := some (li, log__term_of l li) } := by
      simp only [log__snapshot]
      rw [if_neg hcond]
    rw [hs]
    exact ⟨fun b hb => hbound b hb, hnd⟩

theorem refs_applyOp (l : RaftLog) (op : LogOp) : (applyOp l op).refs = l.refs := by
  cases op with
  | trunc i => rfl
  | disc i => rfl
  | snap li t =>
    simp only [applyOp, log__snapshot]
    split <;> rfl

theorem heldInv_applyOp {ps : List (Nat × RaftEntry)} {l : RaftLog}
    (h : HeldInv ps l) (op : LogOp) : HeldInv ps (applyOp l op) := by
  cases op with
  | trunc i => exact heldInv_truncate h i
  | disc i => exact heldInv_discard h i
  | snap li t => exact heldInv_snapshot h li t

theorem heldInv_applyOps {ps : List (Nat × RaftEntry)} {l : RaftLog}
    (h : HeldInv ps l) (ops : List LogOp) :
    HeldInv ps (applyOps l ops) := by
  induction ops generalizing l with
  | nil => exact h
  | cons op ops ih => exact ih (heldInv_applyOp h op)

/-! ## Acquire-side accounting lemmas -/

theorem countP_congr_mem {α : Type} {p q : α → Bool} {l : List α}
    (h : ∀ a ∈ l, p a = q a) : l.countP p = l.countP q := by
  induction l with
  | nil => rfl
  | cons a l ih =>
    rw [List.countP_cons, List.countP_cons, h a (List.mem_cons_self _ _),
      ih (fun x hx => h x (List.mem_cons_of_mem _ hx))]

theorem countP_le_of_imp {α : Type} {p q : α → Bool} {l : List α}
    (h : ∀ a ∈ l, p a = true → q a = true) : l.countP p ≤ l.countP q := by
  induction l with
  | nil => simp
  | cons a l ih =>
    rw [List.countP_cons, List.countP_cons]
    have hrec := ih (fun x hx => h x (List.mem_cons_of_mem _ hx))
    by_cases hp : p a = true
    · rw [hp, h a (List.mem_cons_self _ _) hp]
      omega
    · have hpf : p a = false := by
        cases hpa : p a
        · rfl
        · exact absurd hpa hp
      rw [hpf]
      by_cases hq : q a = true
      · rw [hq]
        simp
        omega
      · have hqf : q a = false := by
          cases hqa : q a
          · rfl
          · exact absurd hqa hq
        rw [hqf]
        simp
        omega

theorem mem_snd_withIndexFrom {es : List RaftEntry} {i : Nat}
    {p : Nat × RaftEntry} (h : p ∈ withIndexFrom i es) : p.2 ∈ es := by
  induction es generalizing i with
  | nil => simp [withIndexFrom] at h
  | cons e es ih =>
    simp only [withIndexFrom, List.mem_cons] at h
    rcases h with h | h
    · simp [h]
    · exact List.mem_cons_of_mem _ (ih h)

theorem storeContrib_acqFold {qs ps : List (Nat × RaftEntry)}
    {r : List (Nat × Nat × Nat)} (hnd : (ps.map Prod.fst).Nodup) (b : Nat) :
    storeContrib qs (ps.foldl (fun r p => bumpAcq r p.1 p.2.batch) r) b =
      qs.countP (fun p => decide (p.2.batch = b ∧ acqCount r p.1 = 0 ∧
        p.1 ∉ ps.map Prod.fst)) := by
  rw [storeContrib]
  apply countP_congr_mem
  intro q hq
  rw [acqCount_acqFold ps r hnd q.1]
  by_cases hmem : q.1 ∈ ps.map Prod.fst <;> by_cases hb : q.2.batch = b <;>
    simp [hmem, hb]

theorem heldInv_after_acquire (l : RaftLog) {i : Nat} (hB : BatchesInv l)
    (hlo : l.offset < i) :
    HeldInv (withIndexFrom i (l.entries.drop (i - l.offset - 1)))
      (log__acquire l i).2 := by
  obtain ⟨hbound, hnd⟩ := hB
  set k := i - l.offset - 1 with hk
  set es := l.entries.drop k with hes
  set ps := withIndexFrom i es with hps
  have hndp : (ps.map Prod.fst).Nodup := keys_nodup_withIndexFrom es i
  have hdrop : ps = (entriesWithIndex l).drop k := by
    rw [hps, hes, entriesWithIndex, ← withIndexFrom_drop]
    congr 1
    omega
  constructor
  · intro b hb
    have hbl : b ∈ l.entries.map RaftEntry.batch := by
      rcases List.mem_append.1 hb with hb | hb
      · exact hb
      · rcases List.mem_map.1 hb with ⟨p, hp, hbp⟩
        have hpe : p.2 ∈ l.entries :=
          List.mem_of_mem_drop (mem_snd_withIndexFrom hp)
        exact List.mem_map.2 ⟨p.2, hpe, hbp⟩
    have hc := hbound b hbl
    have hrefs : (log__acquire l i).2.refs =
        ps.foldl (fun r p => bumpAcq r p.1 p.2.batch) l.refs := rfl
    have hewi : entriesWithIndex (log__acquire l i).2 = entriesWithIndex l :=
      rfl
    rw [hewi, hrefs, storeContrib_acqFold hndp]
    rw [show (log__acquire l i).2.batches = l.batches from rfl]
    have hsplitP : (entriesWithIndex l).countP
        (fun p => decide (p.2.batch = b ∧ acqCount l.refs p.1 = 0 ∧
          p.1 ∉ ps.map Prod.fst)) =
        ((entriesWithIndex l).take k).countP
          (fun p => decide (p.2.batch = b ∧ acqCount l.refs p.1 = 0 ∧
            p.1 ∉ ps.map Prod.fst)) +
        ((entriesWithIndex l).drop k).countP
          (fun p => decide (p.2.batch = b ∧ acqCount l.refs p.1 = 0 ∧
            p.1 ∉ ps.map Prod.fst)) := by
      rw [← List.countP_append, List.take_append_drop]
    have hdropEq : ((entriesWithIndex l).drop k).countP
        (fun p => decide (p.2.batch = b ∧ acqCount l.refs p.1 = 0 ∧
          p.1 ∉ ps.map Prod.fst)) = 0 := by
      rw [List.countP_eq_zero]
      intro p hp
      rw [← hdrop] at hp
      have hpk : p.1 ∈ ps.map Prod.fst := List.mem_map.2 ⟨p, hp, rfl⟩
      simp [hpk]
    have htakeLe : ((entriesWithIndex l).take k).countP
        (fun p => decide (p.2.batch = b ∧ acqCount l.refs p.1 = 0 ∧
          p.1 ∉ ps.map Prod.fst)) ≤
        ((entriesWithIndex l).take k).countP
          (fun p => decide (p.2.batch = b)) := by
      apply countP_le_of_imp
      intro a _ ha
      simp only [decide_eq_true_eq] at ha ⊢
      exact ha.1
    have hallSplit : storeAll l b =
        ((entriesWithIndex l).take k).countP
          (fun p => decide (p.2.batch = b)) +
        ((entriesWithIndex l).drop k).countP
          (fun p => decide (p.2.batch = b)) := by
      rw [storeAll, ← List.countP_append, List.take_append_drop]
    have hheldEq : heldCount ps b =
        ((entriesWithIndex l).drop k).countP
          (fun p => decide (p.2.batch = b)) := by
      rw [heldCount, hdrop]
    rw [hsplitP, hdropEq, hheldEq]
    rw [hallSplit] at hc
    omega
  · exact hnd

theorem exists_index_of_mem {es : List RaftEntry} {e : RaftEntry} (i : Nat)
    (h : e ∈ es) : ∃ k, (k, e) ∈ withIndexFrom i es := by
  induction es generalizing i with
  | nil => simp at h
  | cons f es ih =>
    rcases List.mem_cons.1 h with h | h
    · exact ⟨i, by rw [h]; exact List.mem_cons_self _ _⟩
    · obtain ⟨k, hk⟩ := ih (i + 1) h
      exact ⟨k, List.mem_cons_of_mem _ hk⟩

theorem acquired_batch_live (l : RaftLog) {i : Nat} (ops : List LogOp)
    (hB : BatchesInv l) (hlo : l.offset < i) :
    ∀ e ∈ (log__acquire l i).1,
      1 ≤ refOf (applyOps (log__acquire l i).2 ops).batches e.batch := by
  intro e he
  set k := i - l.offset - 1 with hk
  set es := l.entries.drop k with hes
  set ps := withIndexFrom i es with hps
  have hheld : HeldInv ps (log__acquire l i).2 :=
    heldInv_after_acquire l hB hlo
  have hfin : HeldInv ps (applyOps (log__acquire l i).2 ops) :=
    heldInv_applyOps hheld ops
  obtain ⟨hbound, _⟩ := hfin
  have he2 : e ∈ es := he
  obtain ⟨kk, hkk⟩ := exists_index_of_mem i he2
  have hmem : e.batch ∈
      (applyOps (log__acquire l i).2 ops).entries.map RaftEntry.batch ++
        ps.map (fun p => p.2.batch) :=
    List.mem_append.2 (Or.inr (List.mem_map.2 ⟨(kk, e), hkk, rfl⟩))
  have hc := hbound e.batch hmem
  have hpos : 1 ≤ heldCount ps e.batch := by
    rw [heldCount]
    have hcp : 0 < ps.countP (fun p => decide (p.2.batch = e.batch)) :=
      List.countP_pos_iff.2 ⟨(kk, e), hkk, by simp⟩
    omega
  omega

/-! ## Structural invariants of reachable states -/

theorem last_index_nonempty {l : RaftLog} (h : l.entries ≠ []) :
    log__last_index l = l.offset + l.entries.length := by
  cases hsnap : l.snapshot <;> cases hent : l.entries <;>
    simp_all [log__last_index]

theorem last_index_empty_snap {l : RaftLog} {si st : Nat}
    (h : l.entries = []) (hs : l.snapshot = some (si, st)) :
    log__last_index l = si := by
  simp [log__last_index, h, hs]

theorem last_index_empty_none {l : RaftLog}
    (h : l.entries = []) (hs : l.snapshot = none) :
    log__last_index l = 0 := by
  simp [log__last_index, h, hs]

theorem term_of_outstanding {l : RaftLog} {idx : Nat}
    (h1 : l.offset < idx) (h2 : idx ≤ l.offset + l.entries.length) :
    ∃ e, l.entries.get? (idx - l.offset - 1) = some e ∧
      log__term_of l idx = e.term ∧ e ∈ l.entries := by
  have hlt : idx - l.offset - 1 < l.entries.length := by omega
  cases hget : l.entries.get? (idx - l.offset - 1) with
  | none =>
    have := List.get?_eq_none.1 hget
    omega
  | some e =>
    have hne : l.entries ≠ [] := by
      intro hcon
      rw [hcon] at hlt
      simp at hlt
    have hlast : log__last_index l = l.offset + l.entries.length :=
      last_index_nonempty hne
    refine ⟨e, rfl, ?_, List.get?_mem hget⟩
    rw [log__term_of, if_neg (by omega), hlast, if_neg (by omega),
      if_pos h1, hget]

theorem releaseFold_frame (ps : List (Nat × RaftEntry)) (st : RaftLog) :
    (ps.foldl (fun s p => releaseStep s p.1 p.2) st).entries = st.entries ∧
    (ps.foldl (fun s p => releaseStep s p.1 p.2) st).offset = st.offset ∧
    (ps.foldl (fun s p => releaseStep s p.1 p.2) st).snapshot = st.snapshot := by
  induction ps generalizing st with
  | nil => exact ⟨rfl, rfl, rfl⟩
  | cons p ps ih =>
    simp only [List.foldl_cons]
    have h1 := ih (releaseStep st p.1 p.2)
    have h2 : (releaseStep st p.1 p.2).entries = st.entries ∧
        (releaseStep st p.1 p.2).offset = st.offset ∧
        (releaseStep st p.1 p.2).snapshot = st.snapshot := by
      rw [releaseStep]
      split
      · exact ⟨rfl, rfl, rfl⟩
      · exact ⟨rfl, rfl, rfl⟩
    exact ⟨h1.1.trans h2.1, (h1.2.1).trans h2.2.1, (h1.2.2).trans h2.2.2⟩

theorem goodLog_reachable {l : RaftLog} (h : Reachable l) : GoodLog l := by
  induction h with
  | init =>
    exact ⟨by intro e he; simp [log__init] at he,
      by intro si st hs; simp [log__init] at hs⟩
  | app hr hterm ih =>
    rename_i l0 term ty buf
    obtain ⟨ihT, ihS⟩ := ih
    constructor
    · intro e he
      rcases List.mem_append.1 he with he | he
      · exact ihT e he
      · rw [List.mem_singleton] at he
        rw [he]
        exact hterm
    · intro si st hs
      have hs0 : l0.snapshot = some (si, st) := hs
      obtain ⟨h1, h2, h3, h4, h5⟩ := ihS si st hs0
      refine ⟨h1, h2, h3, ?_, ?_⟩
      · simp only [appendOk, List.length_append, List.length_singleton]
        omega
      · intro hemp
        simp only [appendOk] at hemp
        exact absurd hemp (by simp)
  | acq hr hi ih => exact ih
  | rel hr ih =>
    rename_i l0 i es
    obtain ⟨ihT, ihS⟩ := ih
    obtain ⟨he, ho, hs⟩ := releaseFold_frame (withIndexFrom i es) l0
    have heR : (log__release l0 i es).entries = l0.entries := he
    have hoR : (log__release l0 i es).offset = l0.offset := ho
    have hsR : (log__release l0 i es).snapshot = l0.snapshot := hs
    constructor
    · intro e hmem
      rw [heR] at hmem
      exact ihT e hmem
    · intro si st hsnap
      rw [hsR] at hsnap
      obtain ⟨h1, h2, h3, h4, h5⟩ := ihS si st hsnap
      rw [heR, hoR]
      exact ⟨h1, h2, h3, h4, h5⟩
  | trunc hr hsi ih =>
    rename_i l0 i
    obtain ⟨ihT, ihS⟩ := ih
    constructor
    · intro e he
      exact ihT e (List.mem_of_mem_take he)
    · intro si st hs
      have hs0 : l0.snapshot = some (si, st) := hs
      obtain ⟨h1, h2, h3, h4, h5⟩ := ihS si st hs0
      have hsi0 : log__snapshot_index l0 = si := by
        simp [log__snapshot_index, hs0]
      rw [hsi0] at hsi
      refine ⟨h1, h2, h3, ?_, ?_⟩
      · rw [show (log__truncate l0 i).offset = l0.offset from rfl]
        rw [show (log__truncate l0 i).entries =
          l0.entries.take (i - l0.offset - 1) from rfl]
        rw [List.length_take]
        omega
      · intro hemp
        simp only [log__truncate] at hemp
        rw [show (log__truncate l0 i).offset = l0.offset from rfl]
        rcases List.take_eq_nil_iff.1 hemp with hemp | hemp
        · omega
        · exact h5 hemp
  | disc hr hsi ih =>
    rename_i l0 i
    obtain ⟨ihT, ihS⟩ := ih
    constructor
    · intro e he
      exact ihT e (List.mem_of_mem_take he)
    · intro si st hs
      have hs0 : l0.snapshot = some (si, st) := hs
      obtain ⟨h1, h2, h3, h4, h5⟩ := ihS si st hs0
      have hsi0 : log__snapshot_index l0 = si := by
        simp [log__snapshot_index, hs0]
      rw [hsi0] at hsi
      refine ⟨h1, h2, h3, ?_, ?_⟩
      · rw [show (log__discard l0 i).offset = l0.offset from rfl]
        rw [show (log__discard l0 i).entries =
          l0.entries.take (i - l0.offset - 1) from rfl]
        rw [List.length_take]
        omega
      · intro hemp
        simp only [log__discard] at hemp
        rw [show (log__discard l0 i).offset = l0.offset from rfl]
        rcases List.take_eq_nil_iff.1 hemp with hemp | hemp
        · omega
        · exact h5 hemp
  | snap hr hlo hhi ih =>
    rename_i l0 li t
    obtain ⟨ihT, ihS⟩ := ih
    obtain ⟨e, hget, hterm, hmem⟩ := term_of_outstanding hlo hhi
    have hterm1 : 1 ≤ log__term_of l0 li := by
      rw [hterm]
      exact ihT e hmem
    by_cases hcond : l0.offset < li - t ∧ li - t ≤ l0.offset + l0.entries.length
    · have hs : log__snapshot l0 li t = { l0 with
          entries := l0.entries.drop (li - t - l0.offset),
          offset := li - t,
          snapshot := some (li, log__term_of l0 li),
          batches := evictBatches l0.refs l0.batches
            ((entriesWithIndex l0).take (li - t - l0.offset)) } := by
        simp only [log__snapshot]
        rw [if_pos hcond]
      rw [hs]
      constructor
      · intro e2 he2
        exact ihT e2 (List.mem_of_mem_drop he2)
      · intro si st hsnap
        simp only [Option.some.injEq, Prod.mk.injEq] at hsnap
        obtain ⟨hsi, hst⟩ := hsnap
        subst hsi; subst hst
        refine ⟨hterm1, by omega, by simp, ?_, ?_⟩
        · simp only [List.length_drop]
          omega
        · intro hemp
          simp only [List.drop_eq_nil_iff] at hemp
          simp
          omega
    · have hs : log__snapshot l0 li t =
          { l0 with snapshot := some (li, log__term_of l0 li) } := by
        simp only [log__snapshot]
        rw [if_neg hcond]
      rw [hs]
      constructor
      · intro e2 he2
        exact ihT e2 he2
      · intro si st hsnap
        simp only [Option.some.injEq, Prod.mk.injEq] at hsnap
        obtain ⟨hsi, hst⟩ := hsnap
        subst hsi; subst hst
        refine ⟨hterm1, by omega, by simp; omega, by simp; omega, ?_⟩
        intro hemp
        have : l0.entries.length = 0 := by rw [hemp]; rfl
        omega
  | restore hr hli hlt ih =>
    rename_i l0 li lt
    constructor
    · intro e he
      simp [log__restore] at he
    · intro si st hsnap
      simp only [log__restore, Option.some.injEq, Prod.mk.injEq] at hsnap
      obtain ⟨hsi, hst⟩ := hsnap
      subst hsi; subst hst
      exact ⟨hlt, hli, by simp [log__restore], by simp [log__restore], by
        intro hemp; simp [log__restore]⟩
  | seek hr hemp hsnap ih =>
    rename_i l0 i
    constructor
    · intro e he
      simp [log__seek, hemp] at he
    · intro si st hs
      simp [log__seek, hsnap] at hs

/-! ## Counting outstanding indices in a range -/

theorem countP_range_withIndexFrom (es : List RaftEntry) (i lo hi : Nat) :
    (withIndexFrom i es).countP (fun p => decide (lo < p.1 ∧ p.1 ≤ hi)) =
      min (hi + 1) (i + es.length) - max (lo + 1) i := by
  induction es generalizing i with
  | nil =>
    simp only [withIndexFrom, List.countP_nil, List.length_nil]
    omega
  | cons e es ih =>
    simp only [withIndexFrom, List.countP_cons, List.length_cons, ih (i + 1)]
    by_cases h : lo < i ∧ i ≤ hi
    · simp [h]
      omega
    · simp [h]
      omega

theorem countP_le_withIndexFrom (es : List RaftEntry) {i : Nat} (hi0 : 1 ≤ i)
    (hi : Nat) :
    (withIndexFrom i es).countP (fun p => decide (p.1 ≤ hi)) =
      min (hi + 1) (i + es.length) - i := by
  have hcong : (withIndexFrom i es).countP (fun p => decide (p.1 ≤ hi)) =
      (withIndexFrom i es).countP (fun p => decide (0 < p.1 ∧ p.1 ≤ hi)) := by
    apply countP_congr_mem
    intro p hp
    have := withIndexFrom_bounds hp
    by_cases h2 : p.1 ≤ hi
    · simp [h2]
      omega
    · simp [h2]
  rw [hcong, countP_range_withIndexFrom]
  omega

/-! ## Append/truncate accounting (claim C3) -/

theorem last_index_offset0 {l : RaftLog} (ho : l.offset = 0)
    (hs : l.snapshot = none) : log__last_index l = l.entries.length := by
  cases hent : l.entries <;> simp_all [log__last_index]

theorem atApplied_acct (ops : List ATOp) (l : RaftLog)
    (ho : l.offset = 0) (hs : l.snapshot = none) :
    (atApplied l ops).offset = 0 ∧ (atApplied l ops).snapshot = none ∧
      (atApplied l ops).entries.length + atRemoved l ops =
        l.entries.length + atAppended ops := by
  induction ops generalizing l with
  | nil => simp [atApplied, atRemoved, atAppended, ho, hs]
  | cons op ops ih =>
    cases op with
    | app t ty buf =>
      have hrec := ih (appendOk l t ty buf none)
        (by simp [appendOk, ho]) (by simp [appendOk, hs])
      obtain ⟨h1, h2, h3⟩ := hrec
      simp only [atApplied, atRemoved, atAppended, applyAT]
      refine ⟨h1, h2, ?_⟩
      rw [h3]
      simp only [appendOk, List.length_append, List.length_singleton]
      omega
    | trunc i =>
      have hrec := ih (log__truncate l i)
        (by rw [show (log__truncate l i).offset = l.offset from rfl]; exact ho)
        (by rw [show (log__truncate l i).snapshot = l.snapshot from rfl];
            exact hs)
      obtain ⟨h1, h2, h3⟩ := hrec
      simp only [atApplied, atRemoved, atAppended, applyAT]
      refine ⟨h1, h2, ?_⟩
      have hlen : (log__truncate l i).entries.length =
          min (i - l.offset - 1) l.entries.length := by
        rw [show (log__truncate l i).entries =
          l.entries.take (i - l.offset - 1) from rfl, List.length_take]
      rw [hlen] at h3
      rw [removedBy]
      omega

/-! ## Characterisation of term lookups -/

theorem term_of_get {l : RaftLog} {idx : Nat} {e : RaftEntry}
    (h : log__get l idx = some e) : log__term_of l idx = e.term := by
  rw [log__get] at h
  by_cases ho : l.offset < idx
  · rw [if_pos ho] at h
    have hlt : idx - l.offset - 1 < l.entries.length := by
      by_contra hcon
      rw [List.get?_eq_none.2 (by omega)] at h
      exact Option.noConfusion h
    obtain ⟨e2, hget2, hterm2, _⟩ := term_of_outstanding ho (by omega)
    rw [hget2] at h
    have he : e2 = e := Option.some.inj h
    rw [← he]
    exact hterm2
  · rw [if_neg ho] at h
    exact Option.noConfusion h

theorem term_of_snapshot_retained {l : RaftLog} (hg : GoodLog l)
    {si st : Nat} (hs : l.snapshot = some (si, st))
    (hnone : log__get l si = none) : log__term_of l si = st := by
  obtain ⟨hT, hS⟩ := hg
  obtain ⟨h1, h2, h3, h4, h5⟩ := hS si st hs
  have hno : ¬l.offset < si := by
    intro hlt
    rw [log__get, if_pos hlt, List.get?_eq_none] at hnone
    omega
  have hlast : ¬log__last_index l < si := by
    cases hent : l.entries with
    | nil => rw [last_index_empty_snap hent hs]; omega
    | cons a as =>
      have hli : log__last_index l = l.offset + l.entries.length :=
        last_index_nonempty (by rw [hent]; simp)
      rw [hli]
      omega
  rw [log__term_of, if_neg (by omega), if_neg hlast, if_neg hno, hs]
  simp

theorem term_of_zero_iff {l : RaftLog} (hg : GoodLog l) (idx : Nat) :
    log__term_of l idx = 0 ↔
      (idx = 0 ∨ log__last_index l < idx ∨ idx < oldestKnownIndex l) := by
  obtain ⟨hT, hS⟩ := hg
  by_cases h0 : idx = 0
  · simp [log__term_of, h0]
  by_cases hhi : log__last_index l < idx
  · rw [log__term_of, if_neg h0, if_pos hhi]
    simp [hhi]
  rw [log__term_of, if_neg h0, if_neg hhi]
  cases hent : l.entries with
  | nil =>
    cases hsnap : l.snapshot with
    | none =>
      exfalso
      rw [last_index_empty_none hent hsnap] at hhi
      omega
    | some p =>
      obtain ⟨si, st⟩ := p
      obtain ⟨h1, h2, h3, h4, h5⟩ := hS si st hsnap
      have hosi : l.offset = si := h5 hent
      have hlastv : log__last_index l = si := last_index_empty_snap hent hsnap
      have hno : ¬l.offset < idx := by
        rw [hlastv] at hhi
        omega
      have hold : oldestKnownIndex l = si := by
        simp [oldestKnownIndex, hent, hsnap]
      rw [if_neg hno, hold, hlastv]
      show (if idx = si then st else 0) = 0 ↔
        idx = 0 ∨ si < idx ∨ idx < si
      rw [hlastv] at hhi
      by_cases heq : idx = si
      · rw [if_pos heq]
        omega
      · rw [if_neg heq]
        omega
  | cons a as =>
    have hne : l.entries ≠ [] := by rw [hent]; simp
    have hlastv : log__last_index l = l.offset + l.entries.length :=
      last_index_nonempty hne
    rw [hlastv] at hhi
    have holdle : oldestKnownIndex l ≤ l.offset + 1 := by
      cases hsnap : l.snapshot with
      | none =>
        have hold : oldestKnownIndex l = l.offset + 1 := by
          simp [oldestKnownIndex, hent, hsnap]
        omega
      | some p =>
        obtain ⟨si, st⟩ := p
        have hold : oldestKnownIndex l = min si (l.offset + 1) := by
          simp [oldestKnownIndex, hent, hsnap]
        omega
    by_cases hmid : l.offset < idx
    · obtain ⟨e, hget, hterm, hmem⟩ := term_of_outstanding hmid (by omega)
      have hetm := hT e hmem
      rw [hent] at hget
      rw [if_pos hmid, hget]
      show e.term = 0 ↔
        idx = 0 ∨ log__last_index l < idx ∨ idx < oldestKnownIndex l
      constructor
      · intro hcon
        omega
      · intro hcon
        rcases hcon with hcon | hcon | hcon
        · omega
        · rw [hlastv] at hcon
          omega
        · omega
    · rw [if_neg hmid]
      cases hsnap : l.snapshot with
      | none =>
        have hold : oldestKnownIndex l = l.offset + 1 := by
          simp [oldestKnownIndex, hent, hsnap]
        rw [hold, hlastv]
        show (0 : Nat) = 0 ↔
          idx = 0 ∨ l.offset + l.entries.length < idx ∨ idx < l.offset + 1
        omega
      | some p =>
        obtain ⟨si, st⟩ := p
        obtain ⟨h1, h2, h3, h4, h5⟩ := hS si st hsnap
        have hold : oldestKnownIndex l = min si (l.offset + 1) := by
          simp [oldestKnownIndex, hent, hsnap]
        rw [hold, hlastv]
        show (if idx = si then st else 0) = 0 ↔
          idx = 0 ∨ l.offset + l.entries.length < idx ∨
            idx < min si (l.offset + 1)
        by_cases heq : idx = si
        · rw [if_pos heq]
          omega
        · rw [if_neg heq]
          omega

/-! ## Snapshot compaction counting -/

theorem snapshot_spec (l : RaftLog) (li t : Nat) (hlo : l.offset < li)
    (hhi : li ≤ l.offset + l.entries.length) :
    log__snapshot_index (log__snapshot l li t) = li ∧
    (entriesWithIndex (log__snapshot l li t)).countP
        (fun p => decide (li - t < p.1 ∧ p.1 ≤ li)) =
      min t ((entriesWithIndex l).countP (fun p => decide (p.1 ≤ li))) ∧
    (¬(l.offset < li - t ∧ li - t ≤ l.offset + l.entries.length) →
      (log__snapshot l li t).entries = l.entries ∧
      (log__snapshot l li t).offset = l.offset) := by
  have hRHS : (entriesWithIndex l).countP (fun p => decide (p.1 ≤ li)) =
      li - l.offset := by
    rw [entriesWithIndex, countP_le_withIndexFrom _ (by omega)]
    omega
  by_cases hcond : l.offset < li - t ∧ li - t ≤ l.offset + l.entries.length
  · have hs : log__snapshot l li t = { l with
        entries := l.entries.drop (li - t - l.offset),
        offset := li - t,
        snapshot := some (li, log__term_of l li),
        batches := evictBatches l.refs l.batches
          ((entriesWithIndex l).take (li - t - l.offset)) } := by
      simp only [log__snapshot]
      rw [if_pos hcond]
    refine ⟨by rw [hs]; rfl, ?_, fun hcon => absurd hcond hcon⟩
    rw [hs]
    rw [show entriesWithIndex { l with
        entries := l.entries.drop (li - t - l.offset),
        offset := li - t,
        snapshot := some (li, log__term_of l li),
        batches := evictBatches l.refs l.batches
          ((entriesWithIndex l).take (li - t - l.offset)) } =
      withIndexFrom (li - t + 1) (l.entries.drop (li - t - l.offset))
      from rfl]
    rw [countP_range_withIndexFrom, List.length_drop, hRHS]
    omega
  · have hs : log__snapshot l li t =
        { l with snapshot := some (li, log__term_of l li) } := by
      simp only [log__snapshot]
      rw [if_neg hcond]
    refine ⟨by rw [hs]; rfl, ?_, fun hcon => by rw [hs]; exact ⟨rfl, rfl⟩⟩
    rw [hs]
    rw [show entriesWithIndex
        { l with snapshot := some (li, log__term_of l li) } =
      entriesWithIndex l from rfl]
    rw [hRHS, entriesWithIndex, countP_range_withIndexFrom]
    omega

theorem snapshot_get_above (l : RaftLog) (li t : Nat) :
    ∀ idx, li < idx → log__get (log__snapshot l li t) idx = log__get l idx := by
  intro idx hidx
  by_cases hcond : l.offset < li - t ∧ li - t ≤ l.offset + l.entries.length
  · obtain ⟨hc1, hc2⟩ := hcond
    have hs : log__snapshot l li t = { l with
        entries := l.entries.drop (li - t - l.offset),
        offset := li - t,
        snapshot := some (li, log__term_of l li),
        batches := evictBatches l.refs l.batches
          ((entriesWithIndex l).take (li - t - l.offset)) } := by
      simp only [log__snapshot]
      rw [if_pos ⟨hc1, hc2⟩]
    rw [hs, log__get, log__get]
    dsimp only
    rw [if_pos (show li - t < idx by omega),
      if_pos (show l.offset < idx by omega)]
    rw [List.get?_drop]
    congr 1
    omega
  · have hs : log__snapshot l li t =
        { l with snapshot := some (li, log__term_of l li) } := by
      simp only [log__snapshot]
      rw [if_neg hcond]
    rw [hs]
    rfl

theorem last_index_snapshot_preserved (l : RaftLog) (li t : Nat)
    (hlo : l.offset < li) (hhi : li ≤ l.offset + l.entries.length) :
    log__last_index (log__snapshot l li t) = log__last_index l := by
  have hlen : 0 < l.entries.length := by omega
  have hne : l.entries ≠ [] := by
    intro hcon
    rw [hcon] at hlen
    simp at hlen
  have hlastl : log__last_index l = l.offset + l.entries.length :=
    last_index_nonempty hne
  by_cases hcond : l.offset < li - t ∧ li - t ≤ l.offset + l.entries.length
  · have hs : log__snapshot l li t = { l with
        entries := l.entries.drop (li - t - l.offset),
        offset := li - t,
        snapshot := some (li, log__term_of l li),
        batches := evictBatches l.refs l.batches
          ((entriesWithIndex l).take (li - t - l.offset)) } := by
      simp only [log__snapshot]
      rw [if_pos hcond]
    rw [hs, hlastl]
    by_cases hde : l.entries.drop (li - t - l.offset) = []
    · have hlast2 := last_index_empty_snap (l := { l with
        entries := l.entries.drop (li - t - l.offset),
        offset := li - t,
        snapshot := some (li, log__term_of l li),
        batches := evictBatches l.refs l.batches
          ((entriesWithIndex l).take (li - t - l.offset)) }) hde rfl
      rw [hlast2]
      have hdlen : l.entries.length ≤ li - t - l.offset :=
        List.drop_eq_nil_iff.1 hde
      omega
    · have hlast2 := last_index_nonempty (l := { l with
        entries := l.entries.drop (li - t - l.offset),
        offset := li - t,
        snapshot := some (li, log__term_of l li),
        batches := evictBatches l.refs l.batches
          ((entriesWithIndex l).take (li - t - l.offset)) }) hde
      rw [hlast2]
      dsimp only
      rw [List.length_drop]
      omega
  · have hs : log__snapshot l li t =
        { l with snapshot := some (li, log__term_of l li) } := by
      simp only [log__snapshot]
      rw [if_neg hcond]
    rw [hs, hlastl]
    have hlast2 := last_index_nonempty
      (l := { l with snapshot := some (li, log__term_of l li) }) hne
    rw [hlast2]

/-- Reachability of the three-entry fixture. -/
theorem sampleLog3_reachable : Reachable sampleLog3 :=
  Reachable.app (Reachable.app (Reachable.app Reachable.init (by decide))
    (by decide)) (by decide)

/-! ## The claims -/

/-- C1: for every log state obeying the batch-refcount discipline (each
batch's reference count is at least the number of its entries currently
stored, per the spec's own definition of the refcount — this holds in every
contract-respecting state, including states where an acquired index was
truncated and re-appended from a fresh batch) and every index `i` with at
least one outstanding entry at or above `i`, `log__acquire l i` returns
exactly the outstanding entries from `i` through `log__last_index l` (the
very entry values stored at append time, payload bytes included),
increments each such index's acquire count by one, and the batch backing
each returned entry stays live (its payload memory is not freed) after any
interleaving of truncate, discard and snapshot operations performed before
the matching release. -/
theorem C1_acquire_stable_under_compaction (l : RaftLog) (i : Nat)
    (ops : List LogOp) (hB : BatchesInv l)
    (hlo : l.offset < i) (hhi : i ≤ l.offset + l.entries.length) :
    (log__acquire l i).1 = l.entries.drop (i - l.offset - 1) ∧
    (log__acquire l i).1.length = log__last_index l + 1 - i ∧
    (∀ k, i ≤ k → k ≤ log__last_index l →
      acqCount (log__acquire l i).2.refs k = acqCount l.refs k + 1) ∧
    (∀ e ∈ (log__acquire l i).1,
      1 ≤ refOf (applyOps (log__acquire l i).2 ops).batches e.batch) := by
  have hlen : 0 < l.entries.length := by omega
  have hne : l.entries ≠ [] := by
    intro hcon
    rw [hcon] at hlen
    simp at hlen
  have hlast : log__last_index l = l.offset + l.entries.length :=
    last_index_nonempty hne
  refine ⟨rfl, ?_, ?_, ?_⟩
  · rw [show (log__acquire l i).1 = l.entries.drop (i - l.offset - 1) from rfl,
      List.length_drop, hlast]
    omega
  · intro k hk1 hk2
    rw [hlast] at hk2
    have hrefs : (log__acquire l i).2.refs =
        (withIndexFrom i (l.entries.drop (i - l.offset - 1))).foldl
          (fun r p => bumpAcq r p.1 p.2.batch) l.refs := rfl
    have hmem : k ∈ ((withIndexFrom i
        (l.entries.drop (i - l.offset - 1))).map Prod.fst) := by
      apply mem_keys_withIndexFrom hk1
      rw [List.length_drop]
      omega
    rw [hrefs, acqCount_acqFold _ _ (keys_nodup_withIndexFrom _ _) k,
      if_pos hmem]
  · exact acquired_batch_live l ops hB hlo

theorem C1_witness :
    (log__acquire sampleLogReappended 1).1 =
      sampleLogReappended.entries.drop (1 - sampleLogReappended.offset - 1) ∧
    (log__acquire sampleLogReappended 1).1.length =
      log__last_index sampleLogReappended + 1 - 1 ∧
    (∀ k, 1 ≤ k → k ≤ log__last_index sampleLogReappended →
      acqCount (log__acquire sampleLogReappended 1).2.refs k =
        acqCount sampleLogReappended.refs k + 1) ∧
    (∀ e ∈ (log__acquire sampleLogReappended 1).1,
      1 ≤ refOf (applyOps (log__acquire sampleLogReappended 1).2
        [LogOp.trunc 1]).batches e.batch) :=
  C1_acquire_stable_under_compaction sampleLogReappended 1 [LogOp.trunc 1]
    (by decide) (by decide) (by decide)

/-- C2 counterexample: on a log with outstanding entries 1..3 (so an entry
exists at `lastIndex = 2`), `log__snapshot 2 1` leaves 2 entries
outstanding, not `min trailing available = min 1 2 = 1`, and the
outstanding entry at index 3 lies outside the half-open range `(1, 2]`:
the claim's count over all outstanding entries is wrong because entries
above `lastIndex` stay outstanding. -/
theorem C2_counterexample :
    log__get sampleLog3 2 ≠ none ∧
    log__n_outstanding (log__snapshot sampleLog3 2 1) = 2 ∧
    ¬log__n_outstanding (log__snapshot sampleLog3 2 1) = min 1 2 ∧
    log__get (log__snapshot sampleLog3 2 1) 3 ≠ none := by decide

/-- C2 (amended): when an entry is outstanding at `lastIndex`,
`log__snapshot lastIndex trailing` sets `log__snapshot_index` to
`lastIndex`, leaves exactly `min trailing (number of outstanding entries
with index ≤ lastIndex)` entries outstanding at indices in the half-open
range `(lastIndex - trailing, lastIndex]`, leaves every entry at an index
above `lastIndex` exactly as it was (`log__get` is unchanged there), and
when no entry exists at `lastIndex - trailing` deletes no entry while still
updating the snapshot metadata. -/
theorem C2_snapshot_amended (l : RaftLog) (li t : Nat) (hlo : l.offset < li)
    (hhi : li ≤ l.offset + l.entries.length) :
    log__snapshot_index (log__snapshot l li t) = li ∧
    (entriesWithIndex (log__snapshot l li t)).countP
        (fun p => decide (li - t < p.1 ∧ p.1 ≤ li)) =
      min t ((entriesWithIndex l).countP (fun p => decide (p.1 ≤ li))) ∧
    (∀ idx, li < idx →
      log__get (log__snapshot l li t) idx = log__get l idx) ∧
    (¬(l.offset < li - t ∧ li - t ≤ l.offset + l.entries.length) →
      (log__snapshot l li t).entries = l.entries ∧
      (log__snapshot l li t).offset = l.offset) := by
  obtain ⟨h1, h2, h3⟩ := snapshot_spec l li t hlo hhi
  exact ⟨h1, h2, snapshot_get_above l li t, h3⟩

theorem C2_witness :
    log__snapshot_index (log__snapshot sampleLog3 2 1) = 2 ∧
    (entriesWithIndex (log__snapshot sampleLog3 2 1)).countP
        (fun p => decide (2 - 1 < p.1 ∧ p.1 ≤ 2)) =
      min 1 ((entriesWithIndex sampleLog3).countP
        (fun p => decide (p.1 ≤ 2))) ∧
    (∀ idx, 2 < idx →
      log__get (log__snapshot sampleLog3 2 1) idx =
        log__get sampleLog3 idx) ∧
    (¬(sampleLog3.offset < 2 - 1 ∧
        2 - 1 ≤ sampleLog3.offset + sampleLog3.entries.length) →
      (log__snapshot sampleLog3 2 1).entries = sampleLog3.entries ∧
      (log__snapshot sampleLog3 2 1).offset = sampleLog3.offset) :=
  C2_snapshot_amended sampleLog3 2 1 (by decide) (by decide)

/-- C3 counterexample: after appending one entry of term 1 and taking
`log__snapshot 1 0` (which compacts that single entry away),
`log__last_index` is still 1, not `appended - compacted = 1 - 1 = 0`:
snapshot compaction does not reduce the last index. -/
theorem C3_counterexample :
    log__last_index (log__snapshot (appendOk log__init 1 0 [] none) 1 0) = 1 ∧
    log__n_outstanding
      (log__snapshot (appendOk log__init 1 0 [] none) 1 0) = 0 ∧
    ¬log__last_index (log__snapshot (appendOk log__init 1 0 [] none) 1 0) =
      1 - 1 := by decide

/-- C3 (amended): for every sequence of append and truncate calls starting
from the empty log, `log__last_index` plus the number of entries truncated
away equals the number of entries appended, and when the log is non-empty
`log__term_of` at `log__last_index` is the term of the most recently
appended still-outstanding entry (the last stored entry); snapshot
compaction (taken at an outstanding index) leaves `log__last_index`
unchanged. -/
theorem C3_last_index_amended :
    (∀ ops : List ATOp,
      log__last_index (atApplied log__init ops) + atRemoved log__init ops =
        atAppended ops ∧
      (∀ e, (atApplied log__init ops).entries.getLast? = some e →
        log__term_of (atApplied log__init ops)
          (log__last_index (atApplied log__init ops)) = e.term)) ∧
    (∀ (l : RaftLog) (li t : Nat), l.offset < li →
      li ≤ l.offset + l.entries.length →
      log__last_index (log__snapshot l li t) = log__last_index l) := by
  constructor
  · intro ops
    obtain ⟨h1, h2, h3⟩ := atApplied_acct ops log__init rfl rfl
    have hlast : log__last_index (atApplied log__init ops) =
        (atApplied log__init ops).entries.length := last_index_offset0 h1 h2
    constructor
    · rw [hlast]
      rw [show log__init.entries.length = 0 from rfl] at h3
      omega
    · intro e hlaste
      have hne : (atApplied log__init ops).entries ≠ [] := by
        intro hcon
        rw [hcon] at hlaste
        simp at hlaste
      have hlen : 0 < (atApplied log__init ops).entries.length :=
        List.length_pos.2 hne
      have hget : (atApplied log__init ops).entries.get?
          ((atApplied log__init ops).entries.length - 1) = some e := by
        rw [← List.getLast?_eq_get?]
        exact hlaste
      obtain ⟨e2, hget2, hterm2, _⟩ := @term_of_outstanding
        (atApplied log__init ops) (atApplied log__init ops).entries.length
        (by omega) (by omega)
      rw [h1] at hget2
      have hsub : (atApplied log__init ops).entries.length - 0 - 1 =
          (atApplied log__init ops).entries.length - 1 := by omega
      rw [hsub] at hget2
      rw [hget] at hget2
      have he : e = e2 := Option.some.inj hget2
      rw [hlast, hterm2, ← he]
  · intro l li t hlo hhi
    exact last_index_snapshot_preserved l li t hlo hhi

theorem C3_witness :
    (log__last_index (atApplied log__init [ATOp.app 1 0 [9], ATOp.trunc 1]) +
        atRemoved log__init [ATOp.app 1 0 [9], ATOp.trunc 1] =
      atAppended [ATOp.app 1 0 [9], ATOp.trunc 1]) ∧
    log__last_index (log__snapshot sampleLog3 2 1) =
      log__last_index sampleLog3 :=
  ⟨(C3_last_index_amended.1 [ATOp.app 1 0 [9], ATOp.trunc 1]).1,
    C3_last_index_amended.2 sampleLog3 2 1 (by decide) (by decide)⟩

/-- C4: in every reachable log state, `log__last_index` equals
`offset + len(entries)` when the entry store is non-empty, equals the
snapshot index when the store is empty but a snapshot exists, and equals 0
when the log is fully empty. -/
theorem C4_last_index_formula (l : RaftLog) (h : Reachable l) :
    (l.entries ≠ [] → log__last_index l = l.offset + l.entries.length) ∧
    (l.entries = [] → ∀ si st, l.snapshot = some (si, st) →
      log__last_index l = si) ∧
    (l.entries = [] → l.snapshot = none → log__last_index l = 0) :=
  ⟨fun hne => last_index_nonempty hne,
   fun he si st hs => last_index_empty_snap he hs,
   fun he hs => last_index_empty_none he hs⟩

theorem C4_witness :
    (sampleLog3.entries ≠ [] →
      log__last_index sampleLog3 =
        sampleLog3.offset + sampleLog3.entries.length) ∧
    (sampleLog3.entries = [] → ∀ si st, sampleLog3.snapshot = some (si, st) →
      log__last_index sampleLog3 = si) ∧
    (sampleLog3.entries = [] → sampleLog3.snapshot = none →
      log__last_index sampleLog3 = 0) :=
  C4_last_index_formula sampleLog3 sampleLog3_reachable

/-- C5: in every reachable log state, `log__term_of index` returns 0 exactly
when `index` is 0, greater than `log__last_index`, or below the oldest
index whose term is known (the smallest index that is outstanding or equal
to the snapshot's last index); for outstanding indices it returns the
stored entry's term, and for the snapshot's last index — even after the
entry itself has been compacted away — it returns the explicitly retained
snapshot term. -/
theorem C5_term_of_characterisation (l : RaftLog) (h : Reachable l)
    (idx : Nat) :
    (log__term_of l idx = 0 ↔
      (idx = 0 ∨ log__last_index l < idx ∨ idx < oldestKnownIndex l)) ∧
    (∀ e, log__get l idx = some e → log__term_of l idx = e.term) ∧
    (∀ si st, l.snapshot = some (si, st) → log__get l si = none →
      log__term_of l si = st) := by
  have hg := goodLog_reachable h
  exact ⟨term_of_zero_iff hg idx, fun e he => term_of_get he,
    fun si st hs hn => term_of_snapshot_retained hg hs hn⟩

theorem C5_witness :
    (log__term_of (log__snapshot sampleLog3 3 1) 1 = 0 ↔
      ((1 : Nat) = 0 ∨ log__last_index (log__snapshot sampleLog3 3 1) < 1 ∨
        1 < oldestKnownIndex (log__snapshot sampleLog3 3 1))) ∧
    (∀ e, log__get (log__snapshot sampleLog3 3 1) 1 = some e →
      log__term_of (log__snapshot sampleLog3 3 1) 1 = e.term) ∧
    (∀ si st, (log__snapshot sampleLog3 3 1).snapshot = some (si, st) →
      log__get (log__snapshot sampleLog3 3 1) si = none →
      log__term_of (log__snapshot sampleLog3 3 1) si = st) :=
  C5_term_of_characterisation (log__snapshot sampleLog3 3 1)
    (Reachable.snap sampleLog3_reachable (by decide) (by decide)) 1

/-- C6: when `log__append` fails because an allocation cannot be made
(either growing the store or setting up the batch), it reports
`RAFT_ENOMEM` to the caller and returns the log completely unchanged — the
same state, hence the same `log__last_index`, `log__n_outstanding`,
snapshot metadata and stored entries. -/
theorem C6_append_failure_unchanged (l : RaftLog) (term ty : Nat)
    (buf : List Nat) (batchArg : Option Nat) (growOk batchOk : Bool)
    (h : (log__append l term ty buf batchArg growOk batchOk).1 ≠ 0) :
    (log__append l term ty buf batchArg growOk batchOk).1 = RAFT_ENOMEM ∧
    (log__append l term ty buf batchArg growOk batchOk).2 = l := by
  cases growOk with
  | false => exact ⟨rfl, rfl⟩
  | true =>
    cases batchOk with
    | false => exact ⟨rfl, rfl⟩
    | true => exact absurd rfl h

theorem C6_witness :
    (log__append sampleLog3 2 0 [7] none false true).1 = RAFT_ENOMEM ∧
    (log__append sampleLog3 2 0 [7] none false true).2 = sampleLog3 :=
  C6_append_failure_unchanged sampleLog3 2 0 [7] none false true (by decide)

/-- C7 counterexample: the claim quantifies over every pair `(I, T)`, but at
`I = 0` (the "no snapshot" sentinel, not a valid snapshot index) the
round-trip fails: after `log__restore log__init 0 1`, `log__term_of` at 0
is 0 (index 0 never has a known term), not `T = 1`. -/
theorem C7_counterexample :
    log__snapshot_index (log__restore log__init 0 1) = 0 ∧
    log__n_outstanding (log__restore log__init 0 1) = 0 ∧
    ¬log__term_of (log__restore log__init 0 1) 0 = 1 := by decide

/-- C7 (amended): for every prior log state and every pair `(I, T)` with
`I ≥ 1` (a genuine snapshot position), `log__restore I T` yields
`log__snapshot_index = I`, `log__term_of I = T` and
`log__n_outstanding = 0`. -/
theorem C7_restore_roundtrip (l : RaftLog) (li lt : Nat) (h : 1 ≤ li) :
    log__snapshot_index (log__restore l li lt) = li ∧
    log__term_of (log__restore l li lt) li = lt ∧
    log__n_outstanding (log__restore l li lt) = 0 := by
  refine ⟨rfl, ?_, rfl⟩
  have hlast : log__last_index (log__restore l li lt) = li :=
    last_index_empty_snap rfl rfl
  rw [log__term_of, if_neg (by omega), hlast, if_neg (by omega),
    if_neg (show ¬(log__restore l li lt).offset < li from by
      rw [show (log__restore l li lt).offset = li from rfl]
      omega),
    show (log__restore l li lt).snapshot = some (li, lt) from rfl]
  simp

theorem C7_witness :
    log__snapshot_index (log__restore sampleLog3 7 3) = 7 ∧
    log__term_of (log__restore sampleLog3 7 3) 7 = 3 ∧
    log__n_outstanding (log__restore sampleLog3 7 3) = 0 :=
  C7_restore_roundtrip sampleLog3 7 3 (by decide)

/-- C8: truncating at any index at or before the first outstanding index of
a log with at least one outstanding entry empties the log (outstanding-wise)
while leaving the snapshot metadata — the snapshot field, hence
`log__snapshot_index` and the snapshot's term — untouched. -/
theorem C8_truncate_to_empty (l : RaftLog) (i : Nat)
    (hne : l.entries ≠ []) (hle : i ≤ l.offset + 1) :
    log__n_outstanding (log__truncate l i) = 0 ∧
    (log__truncate l i).snapshot = l.snapshot ∧
    log__snapshot_index (log__truncate l i) = log__snapshot_index l := by
  have hk : i - l.offset - 1 = 0 := by omega
  refine ⟨?_, rfl, rfl⟩
  rw [log__n_outstanding, show (log__truncate l i).entries =
    l.entries.take (i - l.offset - 1) from rfl, hk]
  simp

theorem C8_witness :
    log__n_outstanding (log__truncate sampleLog3 1) = 0 ∧
    (log__truncate sampleLog3 1).snapshot = sampleLog3.snapshot ∧
    log__snapshot_index (log__truncate sampleLog3 1) =
      log__snapshot_index sampleLog3 :=
  C8_truncate_to_empty sampleLog3 1 (by decide) (by decide)

/-- C9: for every log state and every index, `log__discard` and
`log__truncate` produce the same logical store state — the same entries,
offset, snapshot metadata, acquire table, `log__last_index`,
`log__n_outstanding`, `log__snapshot_index`, and the same `log__get` and
`log__term_of` at every index — differing only in the batch table:
truncate runs the deferred-free bookkeeping on the removed range while
discard leaves every batch untouched. -/
theorem C9_discard_truncate_equiv (l : RaftLog) (i : Nat) :
    (log__discard l i).entries = (log__truncate l i).entries ∧
    (log__discard l i).offset = (log__truncate l i).offset ∧
    (log__discard l i).snapshot = (log__truncate l i).snapshot ∧
    (log__discard l i).refs = (log__truncate l i).refs ∧
    log__last_index (log__discard l i) = log__last_index (log__truncate l i) ∧
    log__n_outstanding (log__discard l i) =
      log__n_outstanding (log__truncate l i) ∧
    log__snapshot_index (log__discard l i) =
      log__snapshot_index (log__truncate l i) ∧
    (∀ idx, log__get (log__discard l i) idx =
        log__get (log__truncate l i) idx ∧
      log__term_of (log__discard l i) idx =
        log__term_of (log__truncate l i) idx) ∧
    (log__discard l i).batches = l.batches ∧
    log__truncate l i =
      { log__discard l i with batches := (log__truncate l i).batches } :=
  ⟨rfl, rfl, rfl, rfl, rfl, rfl, rfl, fun idx => ⟨rfl, rfl⟩, rfl, rfl⟩

/-- C10 counterexample: on a state where index 1 is already acquired once
(`sampleLogAcquired`), acquiring from index 1 and immediately releasing the
returned array restores the acquire table to its pre-acquire value, so the
pre-existing acquire count of 1 is still outstanding — contradicting the
claim that the pair leaves no outstanding acquire-count on any entry. -/
theorem C10_counterexample :
    ¬acqCount (log__release (log__acquire sampleLogAcquired 1).2 1
      (log__acquire sampleLogAcquired 1).1).refs 1 = 0 := by decide

/-- C10 (amended): for every well-formed log state and every index from
which acquire succeeds, acquiring and then immediately releasing the
returned array with no intervening operation returns the log to exactly its
previous state — every observable (`log__last_index`, `log__last_term`,
`log__n_outstanding`, `log__snapshot_index`, `log__term_of` and `log__get`
at every index) and every acquire count is restored to its pre-acquire
value; in particular, when no acquire was outstanding beforehand none is
outstanding afterwards. -/
theorem C10_acquire_release_identity (l : RaftLog) (i : Nat)
    (hwf : RefsWF l) (hi : l.offset < i) :
    log__release (log__acquire l i).2 i (log__acquire l i).1 = l :=
  acquire_release_roundtrip l i hwf hi

theorem C10_witness :
    log__release (log__acquire sampleLog3 2).2 2
      (log__acquire sampleLog3 2).1 = sampleLog3 :=
  C10_acquire_release_identity sampleLog3 2 (by decide) (by decide)
